import Mathlib

/-!
Shallow embedding of the search core of `src/Python_Chess.py`:
the material evaluator `evaluate_board`, the alpha-beta searcher `minimax`,
and the root selector `get_best_move`.  The external rules engine
(python-chess) is abstracted as an `Engine` record providing legal-move
enumeration, move application, terminal detection, side to move and piece
counts.  Scores are extended integers `WithBot (WithTop ℤ)`, matching the
use of Python ints together with `float('-inf')` / `float('inf')` sentinels.
-/

/-- The six chess piece kinds, mirroring `chess.PAWN .. chess.KING`. -/
inductive Piece where
  | pawn | knight | bishop | rook | queen | king
deriving DecidableEq, Repr, Fintype

/-- The fixed point values from the `piece_values` dict (lines 9-16). -/
def piece_values : Piece → ℤ
  | Piece.pawn => 1
  | Piece.knight => 3
  | Piece.bishop => 3
  | Piece.rook => 5
  | Piece.queen => 9
  | Piece.king => 0

/-- Iteration order of the `piece_values` dict (Python dict insertion order). -/
def pieceOrder : List Piece :=
  [Piece.pawn, Piece.knight, Piece.bishop, Piece.rook, Piece.queen, Piece.king]

/-- The capability surface the core consumes from the external rules engine
(python-chess): `legal_moves`, `push` (as a pure successor function),
`is_game_over`, `turn` (`true` = White to move, as `chess.WHITE = True`) and
piece counts `len(board.pieces(kind, color))` (color `true` = White). -/
structure Engine (P M : Type) where
  legalMoves : P → List M
  push : P → M → P
  isGameOver : P → Bool
  turn : P → Bool
  pieceCount : P → Piece → Bool → Nat

/-- Scores: integers extended with the sentinels `float('-inf')` (`⊥`) and
`float('inf')` (`⊤`). -/
abbrev Score : Type := WithBot (WithTop ℤ)

/-- Embedding of a Python int score into `Score`. -/
def intScore (z : ℤ) : Score := ((z : WithTop ℤ) : Score)

variable {P M : Type}

/-- `evaluate_board` (lines 7-21): for each piece kind, add the White count
times its value and subtract the Black count times its value. -/
def evaluate_board (E : Engine P M) (board : P) : ℤ :=
  pieceOrder.foldl
    (fun score piece =>
      score + (E.pieceCount board piece true : ℤ) * piece_values piece
            - (E.pieceCount board piece false : ℤ) * piece_values piece)
    0

/-- The maximizing loop of `minimax` (lines 30-39): `cf mv a` is the score of
the child reached by `mv`, searched with the current alpha `a`.  Carries the
current alpha, the (unchanged) beta and the running best `max_eval`; breaks
as soon as `beta <= alpha`. -/
def maxLoop (cf : M → Score → Score) : List M → Score → Score → Score → Score
  | [], _, _, best => best
  | mv :: rest, alpha, beta, best =>
    let ev := cf mv alpha
    let best' := max best ev
    let alpha' := max alpha ev
    if beta ≤ alpha' then best' else maxLoop cf rest alpha' beta best'

/-- The minimizing loop of `minimax` (lines 41-50): carries the (unchanged)
alpha, the current beta and the running best `min_eval`; breaks as soon as
`beta <= alpha`. -/
def minLoop (cf : M → Score → Score) : List M → Score → Score → Score → Score
  | [], _, _, best => best
  | mv :: rest, alpha, beta, best =>
    let ev := cf mv beta
    let best' := min best ev
    let beta' := min beta ev
    if beta' ≤ alpha then best' else minLoop cf rest alpha beta' best'

/-- `minimax` (lines 24-50), with `depth : ℕ` (the program only reaches
non-negative depths; the integer-depth variant is `minimaxF` below).
`push move; recurse; pop` becomes recursion on the pure child position. -/
def minimax (E : Engine P M) : Nat → P → Score → Score → Bool → Score
  | 0, board, _, _, _ => intScore (evaluate_board E board)
  | d + 1, board, alpha, beta, maximizing =>
    if E.isGameOver board then intScore (evaluate_board E board)
    else if maximizing then
      maxLoop (fun mv a => minimax E d (E.push board mv) a beta false)
        (E.legalMoves board) alpha beta ⊥
    else
      minLoop (fun mv bt => minimax E d (E.push board mv) alpha bt true)
        (E.legalMoves board) alpha beta ⊤

/-- The score `get_best_move` computes for one root move (lines 58-60):
push the move, call `minimax` at `depth-1` with the full window, pop.
Note the maximizing flag is `not board.turn` evaluated AFTER the push
(line 59), i.e. the negation of the CHILD position's side to move. -/
def rootScore (E : Engine P M) (board : P) (depth : Nat) (mv : M) : Score :=
  minimax E (depth - 1) (E.push board mv) ⊥ ⊤ (! E.turn (E.push board mv))

/-- The selection loop of `get_best_move` (lines 57-66): `sc mv` is the score
computed for root move `mv`; `rootTurn` is `board.turn` at the root (the
board is restored by `pop` before lines 61/64 test it).  Strict
inequalities, no update otherwise. -/
def gbmLoop (rootTurn : Bool) (sc : M → Score) :
    List M → Option M → Score → Option M
  | [], best_move, _ => best_move
  | mv :: rest, best_move, best_value =>
    let v := sc mv
    if rootTurn = true ∧ best_value < v then gbmLoop rootTurn sc rest (some mv) v
    else if rootTurn = false ∧ v < best_value then gbmLoop rootTurn sc rest (some mv) v
    else gbmLoop rootTurn sc rest best_move best_value

/-- `get_best_move` (lines 53-67). -/
def get_best_move (E : Engine P M) (board : P) (depth : Nat) : Option M :=
  gbmLoop (E.turn board) (rootScore E board depth) (E.legalMoves board)
    none (if E.turn board then ⊥ else ⊤)

/-- Modelled from the spec: plain minimax without pruning — same base case
and the same max/min recursion over the same tree, but no `beta <= alpha`
cutoff quantity.  Comparison definition for the pruning-correctness claim. -/
def plainMinimax (E : Engine P M) : Nat → P → Bool → Score
  | 0, board, _ => intScore (evaluate_board E board)
  | d + 1, board, m =>
    if E.isGameOver board then intScore (evaluate_board E board)
    else if m then
      (E.legalMoves board).foldl
        (fun acc mv => max acc (plainMinimax E d (E.push board mv) false)) ⊥
    else
      (E.legalMoves board).foldl
        (fun acc mv => min acc (plainMinimax E d (E.push board mv) true)) ⊤

/-- The mutable python-chess board with its move stack, instrumented with
push/pop call counters, for the stack-balance property. -/
structure BState (P : Type) where
  cur : P
  stack : List P
  pushes : Nat
  pops : Nat
deriving DecidableEq, Repr

/-- `board.push(move)`: apply the move and save the previous position on the
move stack. -/
def pushS (E : Engine P M) (s : BState P) (mv : M) : BState P :=
  ⟨E.push s.cur mv, s.cur :: s.stack, s.pushes + 1, s.pops⟩

/-- `board.pop()`: restore the position saved by the matching push. -/
def popS (s : BState P) : BState P :=
  match s.stack with
  | [] => ⟨s.cur, [], s.pushes, s.pops + 1⟩
  | p :: rest => ⟨p, rest, s.pushes, s.pops + 1⟩

/-- State-passing form of the maximizing loop of `minimax` (lines 31-38):
each iteration is `push; recurse; pop`. -/
def maxLoopS (E : Engine P M) (f : BState P → Score → Score × BState P) :
    List M → BState P → Score → Score → Score → Score × BState P
  | [], s, _, _, best => (best, s)
  | mv :: rest, s, alpha, beta, best =>
    let r := f (pushS E s mv) alpha
    let s2 := popS r.2
    let best' := max best r.1
    let alpha' := max alpha r.1
    if beta ≤ alpha' then (best', s2) else maxLoopS E f rest s2 alpha' beta best'

/-- State-passing form of the minimizing loop of `minimax` (lines 42-49). -/
def minLoopS (E : Engine P M) (f : BState P → Score → Score × BState P) :
    List M → BState P → Score → Score → Score → Score × BState P
  | [], s, _, _, best => (best, s)
  | mv :: rest, s, alpha, beta, best =>
    let r := f (pushS E s mv) beta
    let s2 := popS r.2
    let best' := min best r.1
    let beta' := min beta r.1
    if beta' ≤ alpha then (best', s2) else minLoopS E f rest s2 alpha beta' best'

/-- State-passing form of `minimax` (lines 24-50), threading the mutable
board-with-stack so push/pop balance and position restoration are visible. -/
def minimaxS (E : Engine P M) : Nat → BState P → Score → Score → Bool → Score × BState P
  | 0, s, _, _, _ => (intScore (evaluate_board E s.cur), s)
  | d + 1, s, alpha, beta, maximizing =>
    if E.isGameOver s.cur then (intScore (evaluate_board E s.cur), s)
    else if maximizing then
      maxLoopS E (fun s' a => minimaxS E d s' a beta false)
        (E.legalMoves s.cur) s alpha beta ⊥
    else
      minLoopS E (fun s' bt => minimaxS E d s' alpha bt true)
        (E.legalMoves s.cur) s alpha beta ⊤

/-- State-passing form of the selection loop of `get_best_move` (lines 57-66):
the maximizing flag handed to `f` is `not board.turn` read AFTER the push
(line 59), and the update tests read `board.turn` AFTER the pop (lines 61/64). -/
def gbmLoopS (E : Engine P M) (f : BState P → Bool → Score × BState P) :
    List M → BState P → Option M → Score → Option M × BState P
  | [], s, best_move, _ => (best_move, s)
  | mv :: rest, s, best_move, best_value =>
    let s1 := pushS E s mv
    let r := f s1 (! E.turn s1.cur)
    let s2 := popS r.2
    if E.turn s2.cur = true ∧ best_value < r.1 then
      gbmLoopS E f rest s2 (some mv) r.1
    else if E.turn s2.cur = false ∧ r.1 < best_value then
      gbmLoopS E f rest s2 (some mv) r.1
    else gbmLoopS E f rest s2 best_move best_value

/-- State-passing form of `get_best_move` (lines 53-67). -/
def get_best_moveS (E : Engine P M) (s : BState P) (depth : Nat) :
    Option M × BState P :=
  gbmLoopS E (fun s' mflag => minimaxS E (depth - 1) s' ⊥ ⊤ mflag)
    (E.legalMoves s.cur) s none (if E.turn s.cur then ⊥ else ⊤)

/-- Maximizing loop of the fuel-instrumented `minimaxF`; `none` from a child
aborts the loop. -/
def maxLoopF (cf : M → Score → Option Score) :
    List M → Score → Score → Score → Option Score
  | [], _, _, best => some best
  | mv :: rest, alpha, beta, best =>
    match cf mv alpha with
    | none => none
    | some ev =>
      let best' := max best ev
      let alpha' := max alpha ev
      if beta ≤ alpha' then some best' else maxLoopF cf rest alpha' beta best'

/-- Minimizing loop of the fuel-instrumented `minimaxF`. -/
def minLoopF (cf : M → Score → Option Score) :
    List M → Score → Score → Score → Option Score
  | [], _, _, best => some best
  | mv :: rest, alpha, beta, best =>
    match cf mv beta with
    | none => none
    | some ev =>
      let best' := min best ev
      let beta' := min beta ev
      if beta' ≤ alpha then some best' else minLoopF cf rest alpha beta' best'

/-- `minimax` with the source's integer depth (`depth - 1` may go negative,
as in Python) and an explicit fuel bound on recursion nesting: `none` means
the call does not return within `fuel` nested activations.  Evaluating this
at growing fuel settles termination and non-termination of the recursion. -/
def minimaxF (E : Engine P M) : Nat → P → ℤ → Score → Score → Bool → Option Score
  | 0, _, _, _, _, _ => none
  | fuel + 1, board, depth, alpha, beta, maximizing =>
    if depth = 0 ∨ E.isGameOver board = true then
      some (intScore (evaluate_board E board))
    else if maximizing then
      maxLoopF (fun mv a => minimaxF E fuel (E.push board mv) (depth - 1) a beta false)
        (E.legalMoves board) alpha beta ⊥
    else
      minLoopF (fun mv bt => minimaxF E fuel (E.push board mv) (depth - 1) alpha bt true)
        (E.legalMoves board) alpha beta ⊤

/-- A concrete rules engine: a depth-2 game tree.  Position `0` (White to
move) has moves `1, 2` leading to positions `1, 2` (Black to move); each of
those has moves `1, 2` leading to leaves `11, 12` resp. `21, 22` (no moves).
Leaf material (White pawns): `11 ↦ 10`, `12 ↦ 0`, `21 ↦ 5`, `22 ↦ 5`.
Position `99` is flagged game over. -/
def CE1 : Engine Nat Nat where
  legalMoves := fun p => if p ≤ 2 then [1, 2] else []
  push := fun p mv => if p = 0 then mv else 10 * p + mv
  isGameOver := fun p => p = 99
  turn := fun p => p = 0 || 10 ≤ p
  pieceCount := fun p k c =>
    if k = Piece.pawn ∧ c = true then
      if p = 11 then 10 else if p = 12 then 0 else
      if p = 21 then 5 else if p = 22 then 5 else 0
    else 0

/-- A concrete rules engine satisfying the guarantee that a position with no
legal moves is flagged game over: positions `0..4` on a line, one move each
until position `3`, positions `3` and `4` terminal.  Material at `p` is `p`
White pawns; White moves on even positions. -/
def CE3 : Engine (Fin 5) Unit where
  legalMoves := fun p => if p.val < 3 then [()] else []
  push := fun p _ => if h : p.val + 1 < 5 then ⟨p.val + 1, h⟩ else p
  isGameOver := fun p => 3 ≤ p.val
  turn := fun p => p.val % 2 = 0
  pieceCount := fun p k c => if k = Piece.pawn ∧ c = true then p.val else 0

/-- A concrete rules engine with a single non-terminal position that moves to
itself: with a negative depth the `depth == 0` test never fires and the
recursion never returns. -/
def LoopE : Engine Unit Unit where
  legalMoves := fun _ => [()]
  push := fun _ _ => ()
  isGameOver := fun _ => false
  turn := fun _ => true
  pieceCount := fun _ _ _ => 0

/-! Helper lemmas about folded maxima and minima of move scores. -/

lemma le_foldl_max (g : M → Score) :
    ∀ (l : List M) (i : Score), i ≤ l.foldl (fun a mv => max a (g mv)) i := by
  intro l
  induction l with
  | nil => intro i; exact le_rfl
  | cons x xs ih => intro i; exact le_trans (le_max_left i (g x)) (ih (max i (g x)))

lemma foldl_min_le (g : M → Score) :
    ∀ (l : List M) (i : Score), l.foldl (fun a mv => min a (g mv)) i ≤ i := by
  intro l
  induction l with
  | nil => intro i; exact le_rfl
  | cons x xs ih => intro i; exact le_trans (ih (min i (g x))) (min_le_left i (g x))

lemma foldl_max_mono (g : M → Score) :
    ∀ (l : List M) {i j : Score}, i ≤ j →
      l.foldl (fun a mv => max a (g mv)) i ≤ l.foldl (fun a mv => max a (g mv)) j := by
  intro l
  induction l with
  | nil => intro i j h; exact h
  | cons x xs ih => intro i j h; exact ih (max_le_max h le_rfl)

lemma foldl_min_mono (g : M → Score) :
    ∀ (l : List M) {i j : Score}, i ≤ j →
      l.foldl (fun a mv => min a (g mv)) i ≤ l.foldl (fun a mv => min a (g mv)) j := by
  intro l
  induction l with
  | nil => intro i j h; exact h
  | cons x xs ih => intro i j h; exact ih (min_le_min h le_rfl)

lemma foldl_max_init (g : M → Score) :
    ∀ (l : List M) (i : Score),
      l.foldl (fun a mv => max a (g mv)) i
        = max i (l.foldl (fun a mv => max a (g mv)) ⊥) := by
  intro l
  induction l with
  | nil => intro i; exact (max_eq_left bot_le).symm
  | cons x xs ih =>
    intro i
    show xs.foldl _ (max i (g x)) = max i (xs.foldl _ (max ⊥ (g x)))
    rw [ih (max i (g x)), ih (max ⊥ (g x)), max_eq_right (bot_le : (⊥ : Score) ≤ g x),
      max_assoc]

lemma foldl_min_init (g : M → Score) :
    ∀ (l : List M) (i : Score),
      l.foldl (fun a mv => min a (g mv)) i
        = min i (l.foldl (fun a mv => min a (g mv)) ⊤) := by
  intro l
  induction l with
  | nil => intro i; exact (min_eq_left le_top).symm
  | cons x xs ih =>
    intro i
    show xs.foldl _ (min i (g x)) = min i (xs.foldl _ (min ⊤ (g x)))
    rw [ih (min i (g x)), ih (min ⊤ (g x)), min_eq_right (le_top : g x ≤ (⊤ : Score)),
      min_assoc]

/-- Fail-soft bounds for the maximizing alpha-beta loop, relative to the
pruning-free folded maximum: inside the window the values agree; a fail-low
result upper-bounds the true value; a fail-high result lower-bounds it. -/
lemma maxLoop_bounds (cf : M → Score → Score) (g : M → Score) (beta : Score)
    (hcf : ∀ mv a, a < beta →
      (cf mv a ≤ a → g mv ≤ cf mv a) ∧
      (beta ≤ cf mv a → cf mv a ≤ g mv) ∧
      (a < cf mv a → cf mv a < beta → cf mv a = g mv)) :
    ∀ (mvs : List M) (alpha best : Score), best ≤ alpha → alpha < beta →
      ((maxLoop cf mvs alpha beta best ≤ alpha →
          mvs.foldl (fun a mv => max a (g mv)) best ≤ maxLoop cf mvs alpha beta best) ∧
       (beta ≤ maxLoop cf mvs alpha beta best →
          maxLoop cf mvs alpha beta best ≤ mvs.foldl (fun a mv => max a (g mv)) best) ∧
       (alpha < maxLoop cf mvs alpha beta best → maxLoop cf mvs alpha beta best < beta →
          maxLoop cf mvs alpha beta best = mvs.foldl (fun a mv => max a (g mv)) best)) := by
  intro mvs
  induction mvs with
  | nil =>
    intro alpha best _ _
    exact ⟨fun _ => le_rfl, fun _ => le_rfl, fun _ _ => rfl⟩
  | cons mv rest ih =>
    intro alpha best hba hab
    obtain ⟨h1, h2, h3⟩ := hcf mv alpha hab
    simp only [maxLoop, List.foldl]
    by_cases hbr : beta ≤ max alpha (cf mv alpha)
    · -- cutoff after this move
      rw [if_pos hbr]
      have hev : beta ≤ cf mv alpha := by
        rcases le_max_iff.mp hbr with h | h
        · exact absurd h (not_le.mpr hab)
        · exact h
      have hbe : best ≤ cf mv alpha := hba.trans (hab.le.trans hev)
      refine ⟨?_, ?_, ?_⟩
      · intro hva
        exact absurd ((hev.trans (le_max_right best (cf mv alpha))).trans hva)
          (not_le.mpr hab)
      · intro _
        calc max best (cf mv alpha) = cf mv alpha := max_eq_right hbe
        _ ≤ g mv := h2 hev
        _ ≤ max best (g mv) := le_max_right best (g mv)
        _ ≤ rest.foldl (fun a mv => max a (g mv)) (max best (g mv)) :=
            le_foldl_max g rest _
      · intro _ hvb
        exact absurd (hev.trans (le_max_right best (cf mv alpha))) (not_le.mpr hvb)
    · -- no cutoff: continue with updated alpha and running best
      rw [if_neg hbr]
      have hab' : max alpha (cf mv alpha) < beta := not_le.mp hbr
      have hba' : max best (cf mv alpha) ≤ max alpha (cf mv alpha) :=
        max_le_max hba le_rfl
      obtain ⟨ih1, ih2, ih3⟩ := ih (max alpha (cf mv alpha)) (max best (cf mv alpha))
        hba' hab'
      by_cases hae : cf mv alpha ≤ alpha
      · -- the child failed low: its result upper-bounds the true child value
        have hgc : g mv ≤ cf mv alpha := h1 hae
        have hαeq : max alpha (cf mv alpha) = alpha := max_eq_left hae
        rw [hαeq] at ih1 ih2 ih3 ⊢
        have hbev : max best (cf mv alpha) ≤ alpha := max_le hba hae
        have hww : rest.foldl (fun a mv => max a (g mv)) (max best (g mv))
            ≤ rest.foldl (fun a mv => max a (g mv)) (max best (cf mv alpha)) :=
          foldl_max_mono g rest (max_le_max le_rfl hgc)
        refine ⟨?_, ?_, ?_⟩
        · intro hva
          exact hww.trans (ih1 hva)
        · intro hbv
          have hvw := ih2 hbv
          rw [foldl_max_init g rest (max best (cf mv alpha))] at hvw
          have hvR : maxLoop cf rest alpha beta (max best (cf mv alpha))
              ≤ rest.foldl (fun a mv => max a (g mv)) ⊥ := by
            rcases le_max_iff.mp hvw with h | h
            · exact absurd (hbv.trans (h.trans hbev)) (not_le.mpr hab)
            · exact h
          rw [foldl_max_init g rest (max best (g mv))]
          exact hvR.trans (le_max_right _ _)
        · intro hav hvb
          have hveq := ih3 hav hvb
          rw [foldl_max_init g rest (max best (cf mv alpha))] at hveq
          have hvR : maxLoop cf rest alpha beta (max best (cf mv alpha))
              = rest.foldl (fun a mv => max a (g mv)) ⊥ := by
            rcases max_choice (max best (cf mv alpha))
              (rest.foldl (fun a mv => max a (g mv)) ⊥) with h | h
            · rw [h] at hveq
              exact absurd (hveq.le.trans hbev) (not_le.mpr hav)
            · rw [h] at hveq; exact hveq
          rw [foldl_max_init g rest (max best (g mv)), ← hvR]
          exact (max_eq_right ((max_le hba (hgc.trans hae)).trans hav.le)).symm
      · -- the child value is inside the window: it is exact
        have haev : alpha < cf mv alpha := not_le.mp hae
        have hev_lt : cf mv alpha < beta :=
          (le_max_right alpha (cf mv alpha)).trans_lt hab'
        have hev_eq : cf mv alpha = g mv := h3 haev hev_lt
        have hαeq : max alpha (cf mv alpha) = cf mv alpha :=
          max_eq_right haev.le
        rw [← hev_eq]
        refine ⟨?_, ?_, ?_⟩
        · intro hva
          exact ih1 (hva.trans (le_max_left alpha (cf mv alpha)))
        · intro hbv
          exact ih2 hbv
        · intro hav hvb
          rcases le_or_lt (maxLoop cf rest (max alpha (cf mv alpha)) beta
              (max best (cf mv alpha))) (max alpha (cf mv alpha)) with hvle | hvlt
          · have hwv := ih1 hvle
            have hvev : maxLoop cf rest (max alpha (cf mv alpha)) beta
                (max best (cf mv alpha)) ≤ cf mv alpha := le_of_le_of_eq hvle hαeq
            have hevv : cf mv alpha
                ≤ rest.foldl (fun a mv => max a (g mv)) (max best (cf mv alpha)) :=
              (le_max_right best (cf mv alpha)).trans (le_foldl_max g rest _)
            exact le_antisymm (hvev.trans hevv) hwv
          · exact ih3 hvlt hvb

/-- Fail-soft bounds for the minimizing alpha-beta loop, dual to
`maxLoop_bounds`. -/
lemma minLoop_bounds (cf : M → Score → Score) (g : M → Score) (alpha : Score)
    (hcf : ∀ mv b, alpha < b →
      (cf mv b ≤ alpha → g mv ≤ cf mv b) ∧
      (b ≤ cf mv b → cf mv b ≤ g mv) ∧
      (alpha < cf mv b → cf mv b < b → cf mv b = g mv)) :
    ∀ (mvs : List M) (beta best : Score), beta ≤ best → alpha < beta →
      ((minLoop cf mvs alpha beta best ≤ alpha →
          mvs.foldl (fun a mv => min a (g mv)) best ≤ minLoop cf mvs alpha beta best) ∧
       (beta ≤ minLoop cf mvs alpha beta best →
          minLoop cf mvs alpha beta best ≤ mvs.foldl (fun a mv => min a (g mv)) best) ∧
       (alpha < minLoop cf mvs alpha beta best → minLoop cf mvs alpha beta best < beta →
          minLoop cf mvs alpha beta best = mvs.foldl (fun a mv => min a (g mv)) best)) := by
  intro mvs
  induction mvs with
  | nil =>
    intro beta best _ _
    exact ⟨fun _ => le_rfl, fun _ => le_rfl, fun _ _ => rfl⟩
  | cons mv rest ih =>
    intro beta best hbb hab
    obtain ⟨h1, h2, h3⟩ := hcf mv beta hab
    simp only [minLoop, List.foldl]
    by_cases hbr : min beta (cf mv beta) ≤ alpha
    · -- cutoff after this move
      rw [if_pos hbr]
      have hev : cf mv beta ≤ alpha := by
        rcases min_le_iff.mp hbr with h | h
        · exact absurd h (not_le.mpr hab)
        · exact h
      have hbe : cf mv beta ≤ best := hev.trans (hab.le.trans hbb)
      refine ⟨?_, ?_, ?_⟩
      · intro _
        calc rest.foldl (fun a mv => min a (g mv)) (min best (g mv))
            ≤ min best (g mv) := foldl_min_le g rest _
        _ ≤ g mv := min_le_right best (g mv)
        _ ≤ cf mv beta := h1 hev
        _ = min best (cf mv beta) := (min_eq_right hbe).symm
      · intro hbv
        exact absurd (hbv.trans ((min_le_right best (cf mv beta)).trans hev))
          (not_le.mpr hab)
      · intro hav _
        exact absurd ((min_le_right best (cf mv beta)).trans hev) (not_le.mpr hav)
    · -- no cutoff: continue with updated beta and running best
      rw [if_neg hbr]
      have hab' : alpha < min beta (cf mv beta) := not_le.mp hbr
      have hbb' : min beta (cf mv beta) ≤ min best (cf mv beta) :=
        min_le_min hbb le_rfl
      obtain ⟨ih1, ih2, ih3⟩ := ih (min beta (cf mv beta)) (min best (cf mv beta))
        hbb' hab'
      by_cases hae : beta ≤ cf mv beta
      · -- the child failed high: its result lower-bounds the true child value
        have hgc : cf mv beta ≤ g mv := h2 hae
        have hβeq : min beta (cf mv beta) = beta := min_eq_left hae
        rw [hβeq] at ih1 ih2 ih3 ⊢
        have hbev : beta ≤ min best (cf mv beta) := le_min hbb hae
        have hww : rest.foldl (fun a mv => min a (g mv)) (min best (cf mv beta))
            ≤ rest.foldl (fun a mv => min a (g mv)) (min best (g mv)) :=
          foldl_min_mono g rest (min_le_min le_rfl hgc)
        refine ⟨?_, ?_, ?_⟩
        · intro hva
          have hwv := ih1 hva
          rw [foldl_min_init g rest (min best (cf mv beta))] at hwv
          have hRv : rest.foldl (fun a mv => min a (g mv)) ⊤
              ≤ minLoop cf rest alpha beta (min best (cf mv beta)) := by
            rcases min_le_iff.mp hwv with h | h
            · exact absurd ((hbev.trans h).trans hva) (not_le.mpr hab)
            · exact h
          rw [foldl_min_init g rest (min best (g mv))]
          exact (min_le_right _ _).trans hRv
        · intro hbv
          exact (ih2 hbv).trans hww
        · intro hav hvb
          have hveq := ih3 hav hvb
          rw [foldl_min_init g rest (min best (cf mv beta))] at hveq
          have hvR : minLoop cf rest alpha beta (min best (cf mv beta))
              = rest.foldl (fun a mv => min a (g mv)) ⊤ := by
            rcases min_choice (min best (cf mv beta))
              (rest.foldl (fun a mv => min a (g mv)) ⊤) with h | h
            · rw [h] at hveq
              exact absurd (hbev.trans hveq.ge) (not_le.mpr hvb)
            · rw [h] at hveq; exact hveq
          rw [foldl_min_init g rest (min best (g mv)), ← hvR]
          exact (min_eq_right (hvb.le.trans (hbev.trans (min_le_min le_rfl hgc)))).symm
      · -- the child value is inside the window: it is exact
        have hevb : cf mv beta < beta := not_le.mp hae
        have haev : alpha < cf mv beta := hab'.trans_le (min_le_right beta (cf mv beta))
        have hev_eq : cf mv beta = g mv := h3 haev hevb
        have hβeq : min beta (cf mv beta) = cf mv beta := min_eq_right hevb.le
        rw [← hev_eq]
        refine ⟨?_, ?_, ?_⟩
        · intro hva
          exact ih1 hva
        · intro hbv
          exact ih2 ((min_le_left beta (cf mv beta)).trans hbv)
        · intro hav hvb
          rcases le_or_lt (min beta (cf mv beta))
            (minLoop cf rest alpha (min beta (cf mv beta)) (min best (cf mv beta)))
            with hvge | hvlt
          · refine le_antisymm (ih2 hvge) ?_
            exact ((foldl_min_le g rest _).trans (min_le_right best (cf mv beta))).trans
              (le_of_eq_of_le hβeq.symm hvge)
          · exact ih3 hav hvlt

/-- Fail-soft alpha-beta correctness: for any window `alpha < beta`, the
pruned search agrees with plain minimax inside the window and bounds it on
failure. -/
lemma ab_bounds (E : Engine P M) :
    ∀ (d : Nat) (p : P) (alpha beta : Score) (m : Bool), alpha < beta →
      ((minimax E d p alpha beta m ≤ alpha →
          plainMinimax E d p m ≤ minimax E d p alpha beta m) ∧
       (beta ≤ minimax E d p alpha beta m →
          minimax E d p alpha beta m ≤ plainMinimax E d p m) ∧
       (alpha < minimax E d p alpha beta m → minimax E d p alpha beta m < beta →
          minimax E d p alpha beta m = plainMinimax E d p m)) := by
  intro d
  induction d with
  | zero =>
    intro p alpha beta m _
    exact ⟨fun _ => le_rfl, fun _ => le_rfl, fun _ _ => rfl⟩
  | succ d ih =>
    intro p alpha beta m hab
    by_cases hg : E.isGameOver p = true
    · refine ⟨fun _ => ?_, fun _ => ?_, fun _ _ => ?_⟩ <;>
        simp [minimax, plainMinimax, if_pos hg]
    · cases m with
      | true =>
        simp only [minimax, plainMinimax, if_neg hg, if_pos trivial]
        exact maxLoop_bounds
          (fun mv a => minimax E d (E.push p mv) a beta false)
          (fun mv => plainMinimax E d (E.push p mv) false) beta
          (fun mv a ha => ih (E.push p mv) a beta false ha)
          (E.legalMoves p) alpha ⊥ bot_le hab
      | false =>
        simp only [minimax, plainMinimax, if_neg hg]
        rw [if_neg (by exact fun h => Bool.false_ne_true h),
          if_neg (by exact fun h => Bool.false_ne_true h)]
        exact minLoop_bounds
          (fun mv bt => minimax E d (E.push p mv) alpha bt true)
          (fun mv => plainMinimax E d (E.push p mv) true) alpha
          (fun mv b hb => ih (E.push p mv) alpha b true hb)
          (E.legalMoves p) beta ⊤ le_top hab

/-- One maximizing loop leaves the board and its move stack as it found them
and performs equally many pushes and pops, provided each child call does. -/
lemma maxLoopS_state (E : Engine P M) (f : BState P → Score → Score × BState P)
    (hf : ∀ s' a, ∃ k, (f s' a).2 = ⟨s'.cur, s'.stack, s'.pushes + k, s'.pops + k⟩) :
    ∀ (mvs : List M) (s : BState P) (alpha beta best : Score),
      ∃ k, (maxLoopS E f mvs s alpha beta best).2
        = ⟨s.cur, s.stack, s.pushes + k, s.pops + k⟩ := by
  intro mvs
  induction mvs with
  | nil => intro s alpha beta best; exact ⟨0, rfl⟩
  | cons mv rest ih =>
    intro s alpha beta best
    obtain ⟨k1, hk1⟩ := hf (pushS E s mv) alpha
    have hs2 : popS (f (pushS E s mv) alpha).2
        = ⟨s.cur, s.stack, s.pushes + 1 + k1, s.pops + k1 + 1⟩ := by
      rw [hk1]; simp [popS, pushS]
    simp only [maxLoopS]
    by_cases hbr : beta ≤ max alpha (f (pushS E s mv) alpha).1
    · rw [if_pos hbr]
      refine ⟨k1 + 1, ?_⟩
      rw [hs2]
      simp only [BState.mk.injEq]
      exact ⟨trivial, trivial, by omega, by omega⟩
    · rw [if_neg hbr, hs2]
      obtain ⟨k2, hk2⟩ := ih ⟨s.cur, s.stack, s.pushes + 1 + k1, s.pops + k1 + 1⟩
        (max alpha (f (pushS E s mv) alpha).1) beta (max best (f (pushS E s mv) alpha).1)
      refine ⟨k1 + 1 + k2, ?_⟩
      rw [hk2]
      simp only [BState.mk.injEq]
      exact ⟨trivial, trivial, by omega, by omega⟩

/-- One minimizing loop leaves the board and its move stack as it found them
and performs equally many pushes and pops, provided each child call does. -/
lemma minLoopS_state (E : Engine P M) (f : BState P → Score → Score × BState P)
    (hf : ∀ s' b, ∃ k, (f s' b).2 = ⟨s'.cur, s'.stack, s'.pushes + k, s'.pops + k⟩) :
    ∀ (mvs : List M) (s : BState P) (alpha beta best : Score),
      ∃ k, (minLoopS E f mvs s alpha beta best).2
        = ⟨s.cur, s.stack, s.pushes + k, s.pops + k⟩ := by
  intro mvs
  induction mvs with
  | nil => intro s alpha beta best; exact ⟨0, rfl⟩
  | cons mv rest ih =>
    intro s alpha beta best
    obtain ⟨k1, hk1⟩ := hf (pushS E s mv) beta
    have hs2 : popS (f (pushS E s mv) beta).2
        = ⟨s.cur, s.stack, s.pushes + 1 + k1, s.pops + k1 + 1⟩ := by
      rw [hk1]; simp [popS, pushS]
    simp only [minLoopS]
    by_cases hbr : min beta (f (pushS E s mv) beta).1 ≤ alpha
    · rw [if_pos hbr]
      refine ⟨k1 + 1, ?_⟩
      rw [hs2]
      simp only [BState.mk.injEq]
      exact ⟨trivial, trivial, by omega, by omega⟩
    · rw [if_neg hbr, hs2]
      obtain ⟨k2, hk2⟩ := ih ⟨s.cur, s.stack, s.pushes + 1 + k1, s.pops + k1 + 1⟩
        alpha (min beta (f (pushS E s mv) beta).1) (min best (f (pushS E s mv) beta).1)
      refine ⟨k1 + 1 + k2, ?_⟩
      rw [hk2]
      simp only [BState.mk.injEq]
      exact ⟨trivial, trivial, by omega, by omega⟩

/-- Every `minimaxS` call restores the board and the move stack and performs
equally many pushes and pops. -/
lemma minimaxS_state (E : Engine P M) :
    ∀ (d : Nat) (s : BState P) (alpha beta : Score) (m : Bool),
      ∃ k, (minimaxS E d s alpha beta m).2
        = ⟨s.cur, s.stack, s.pushes + k, s.pops + k⟩ := by
  intro d
  induction d with
  | zero => intro s alpha beta m; exact ⟨0, rfl⟩
  | succ d ih =>
    intro s alpha beta m
    by_cases hg : E.isGameOver s.cur = true
    · simp only [minimaxS, if_pos hg]; exact ⟨0, rfl⟩
    · cases m with
      | true =>
        simp only [minimaxS, if_neg hg, if_pos trivial]
        exact maxLoopS_state E _ (fun s' a => ih s' a beta false)
          (E.legalMoves s.cur) s alpha beta ⊥
      | false =>
        simp only [minimaxS, if_neg hg]
        rw [if_neg (fun h => Bool.false_ne_true h)]
        exact minLoopS_state E _ (fun s' bt => ih s' alpha bt true)
          (E.legalMoves s.cur) s alpha beta ⊤

/-- The root-selection loop restores the board and the move stack and
performs equally many pushes and pops, provided each child search does. -/
lemma gbmLoopS_state (E : Engine P M) (f : BState P → Bool → Score × BState P)
    (hf : ∀ s' b, ∃ k, (f s' b).2 = ⟨s'.cur, s'.stack, s'.pushes + k, s'.pops + k⟩) :
    ∀ (mvs : List M) (s : BState P) (bm : Option M) (bv : Score),
      ∃ k, (gbmLoopS E f mvs s bm bv).2
        = ⟨s.cur, s.stack, s.pushes + k, s.pops + k⟩ := by
  intro mvs
  induction mvs with
  | nil => intro s bm bv; exact ⟨0, rfl⟩
  | cons mv rest ih =>
    intro s bm bv
    obtain ⟨k1, hk1⟩ := hf (pushS E s mv) (! E.turn (pushS E s mv).cur)
    have hs2 : popS (f (pushS E s mv) (! E.turn (pushS E s mv).cur)).2
        = ⟨s.cur, s.stack, s.pushes + 1 + k1, s.pops + k1 + 1⟩ := by
      rw [hk1]; simp [popS, pushS]
    simp only [gbmLoopS, hs2]
    split
    · obtain ⟨k2, hk2⟩ := ih ⟨s.cur, s.stack, s.pushes + 1 + k1, s.pops + k1 + 1⟩
        (some mv) (f (pushS E s mv) (! E.turn (pushS E s mv).cur)).1
      refine ⟨k1 + 1 + k2, ?_⟩
      rw [hk2]
      simp only [BState.mk.injEq]
      exact ⟨trivial, trivial, by omega, by omega⟩
    · split
      · obtain ⟨k2, hk2⟩ := ih ⟨s.cur, s.stack, s.pushes + 1 + k1, s.pops + k1 + 1⟩
          (some mv) (f (pushS E s mv) (! E.turn (pushS E s mv).cur)).1
        refine ⟨k1 + 1 + k2, ?_⟩
        rw [hk2]
        simp only [BState.mk.injEq]
        exact ⟨trivial, trivial, by omega, by omega⟩
      · obtain ⟨k2, hk2⟩ := ih ⟨s.cur, s.stack, s.pushes + 1 + k1, s.pops + k1 + 1⟩
          bm bv
        refine ⟨k1 + 1 + k2, ?_⟩
        rw [hk2]
        simp only [BState.mk.injEq]
        exact ⟨trivial, trivial, by omega, by omega⟩

/-- `get_best_moveS` restores the board and the move stack and performs
equally many pushes and pops. -/
lemma get_best_moveS_state (E : Engine P M) (s : BState P) (depth : Nat) :
    ∃ k, (get_best_moveS E s depth).2
      = ⟨s.cur, s.stack, s.pushes + k, s.pops + k⟩ :=
  gbmLoopS_state E _ (fun s' b => minimaxS_state E (depth - 1) s' ⊥ ⊤ b)
    (E.legalMoves s.cur) s none (if E.turn s.cur then ⊥ else ⊤)

/-! Basic facts about embedded integer scores. -/

lemma intScore_le_iff {x y : ℤ} : intScore x ≤ intScore y ↔ x ≤ y := by
  simp [intScore]

lemma intScore_lt_iff {x y : ℤ} : intScore x < intScore y ↔ x < y := by
  simp [intScore]

lemma bot_lt_intScore (z : ℤ) : (⊥ : Score) < intScore z :=
  WithBot.bot_lt_coe _

lemma intScore_lt_top (z : ℤ) : intScore z < (⊤ : Score) := by
  simp [intScore]
  exact WithBot.coe_lt_coe.mpr (WithTop.coe_lt_top z)

lemma max_intScore {a b : Score} (ha : a = ⊥ ∨ ∃ z : ℤ, a = intScore z)
    (hb : ∃ z : ℤ, b = intScore z) : ∃ z : ℤ, max a b = intScore z := by
  obtain ⟨zb, hzb⟩ := hb
  rcases ha with h | ⟨za, hza⟩
  · exact ⟨zb, by rw [h, hzb, max_eq_right bot_le]⟩
  · rcases le_total za zb with hz | hz
    · exact ⟨zb, by rw [hza, hzb, max_eq_right (intScore_le_iff.mpr hz)]⟩
    · exact ⟨za, by rw [hza, hzb, max_eq_left (intScore_le_iff.mpr hz)]⟩

lemma min_intScore {a b : Score} (ha : a = ⊤ ∨ ∃ z : ℤ, a = intScore z)
    (hb : ∃ z : ℤ, b = intScore z) : ∃ z : ℤ, min a b = intScore z := by
  obtain ⟨zb, hzb⟩ := hb
  rcases ha with h | ⟨za, hza⟩
  · exact ⟨zb, by rw [h, hzb, min_eq_right le_top]⟩
  · rcases le_total za zb with hz | hz
    · exact ⟨za, by rw [hza, hzb, min_eq_left (intScore_le_iff.mpr hz)]⟩
    · exact ⟨zb, by rw [hza, hzb, min_eq_right (intScore_le_iff.mpr hz)]⟩

/-- If every child value is a finite integer, the maximizing loop returns a
finite integer (the `-inf` sentinel survives only on an empty move list). -/
lemma maxLoop_fin (cf : M → Score → Score)
    (hcf : ∀ mv a, ∃ z : ℤ, cf mv a = intScore z) :
    ∀ (mvs : List M) (alpha beta best : Score),
      (best = ⊥ ∨ ∃ z : ℤ, best = intScore z) →
      (mvs ≠ [] ∨ ∃ z : ℤ, best = intScore z) →
      ∃ z : ℤ, maxLoop cf mvs alpha beta best = intScore z := by
  intro mvs
  induction mvs with
  | nil =>
    intro alpha beta best _ hne
    rcases hne with h | h
    · exact absurd rfl h
    · exact h
  | cons mv rest ih =>
    intro alpha beta best hb _
    have hbest' : ∃ z : ℤ, max best (cf mv alpha) = intScore z :=
      max_intScore hb (hcf mv alpha)
    simp only [maxLoop]
    by_cases hbr : beta ≤ max alpha (cf mv alpha)
    · rw [if_pos hbr]; exact hbest'
    · rw [if_neg hbr]
      exact ih (max alpha (cf mv alpha)) beta (max best (cf mv alpha))
        (Or.inr hbest') (Or.inr hbest')

/-- Dual of `maxLoop_fin` for the minimizing loop. -/
lemma minLoop_fin (cf : M → Score → Score)
    (hcf : ∀ mv b, ∃ z : ℤ, cf mv b = intScore z) :
    ∀ (mvs : List M) (alpha beta best : Score),
      (best = ⊤ ∨ ∃ z : ℤ, best = intScore z) →
      (mvs ≠ [] ∨ ∃ z : ℤ, best = intScore z) →
      ∃ z : ℤ, minLoop cf mvs alpha beta best = intScore z := by
  intro mvs
  induction mvs with
  | nil =>
    intro alpha beta best _ hne
    rcases hne with h | h
    · exact absurd rfl h
    · exact h
  | cons mv rest ih =>
    intro alpha beta best hb _
    have hbest' : ∃ z : ℤ, min best (cf mv beta) = intScore z :=
      min_intScore hb (hcf mv beta)
    simp only [minLoop]
    by_cases hbr : min beta (cf mv beta) ≤ alpha
    · rw [if_pos hbr]; exact hbest'
    · rw [if_neg hbr]
      exact ih alpha (min beta (cf mv beta)) (min best (cf mv beta))
        (Or.inr hbest') (Or.inr hbest')

/-- Under the rules-engine guarantee that a position with no legal moves is
flagged game over, `minimax` always returns a finite integer score. -/
lemma minimax_fin (E : Engine P M)
    (hguar : ∀ p, E.legalMoves p = [] → E.isGameOver p = true) :
    ∀ (d : Nat) (p : P) (alpha beta : Score) (m : Bool),
      ∃ z : ℤ, minimax E d p alpha beta m = intScore z := by
  intro d
  induction d with
  | zero => intro p alpha beta m; exact ⟨evaluate_board E p, rfl⟩
  | succ d ih =>
    intro p alpha beta m
    by_cases hg : E.isGameOver p = true
    · exact ⟨evaluate_board E p, by simp [minimax, if_pos hg]⟩
    · have hne : E.legalMoves p ≠ [] := fun h => hg (hguar p h)
      cases m with
      | true =>
        simp only [minimax, if_neg hg, if_pos trivial]
        exact maxLoop_fin _ (fun mv a => ih (E.push p mv) a beta false)
          (E.legalMoves p) alpha beta ⊥ (Or.inl rfl) (Or.inl hne)
      | false =>
        simp only [minimax, if_neg hg]
        rw [if_neg (fun h => Bool.false_ne_true h)]
        exact minLoop_fin _ (fun mv bt => ih (E.push p mv) alpha bt true)
          (E.legalMoves p) alpha beta ⊤ (Or.inl rfl) (Or.inl hne)

/-- Once a best move has been recorded, the selection loop never returns
`none`. -/
lemma gbmLoop_isSome (rt : Bool) (sc : M → Score) :
    ∀ (mvs : List M) (bm : Option M) (bv : Score), bm.isSome = true →
      (gbmLoop rt sc mvs bm bv).isSome = true := by
  intro mvs
  induction mvs with
  | nil => intro bm bv h; exact h
  | cons mv rest ih =>
    intro bm bv h
    simp only [gbmLoop]
    by_cases h1 : rt = true ∧ bv < sc mv
    · rw [if_pos h1]; exact ih (some mv) (sc mv) rfl
    · rw [if_neg h1]
      by_cases h2 : rt = false ∧ sc mv < bv
      · rw [if_pos h2]; exact ih (some mv) (sc mv) rfl
      · rw [if_neg h2]; exact ih bm bv h

/-- Characterization of the maximizing selection loop: the returned move is
either the incoming one (when no score strictly beats the incoming best) or
the earliest move whose score strictly exceeds the incoming best and all
earlier scores, with no later score exceeding it. -/
lemma gbmLoop_max_char (sc : M → Score) :
    ∀ (mvs : List M) (bm : Option M) (bv : Score) (mv : M),
      gbmLoop true sc mvs bm bv = some mv →
      (some mv = bm ∧ ∀ m' ∈ mvs, sc m' ≤ bv) ∨
      (∃ l1 l2, mvs = l1 ++ mv :: l2 ∧ bv < sc mv ∧
        (∀ m' ∈ l1, sc m' < sc mv) ∧ (∀ m' ∈ l2, sc m' ≤ sc mv)) := by
  intro mvs
  induction mvs with
  | nil =>
    intro bm bv mv h
    left
    exact ⟨h.symm, by intro m' hm'; exact absurd hm' (List.not_mem_nil m')⟩
  | cons mv0 rest ih =>
    intro bm bv mv h
    simp only [gbmLoop] at h
    by_cases hup : bv < sc mv0
    · rw [if_pos ⟨trivial, hup⟩] at h
      rcases ih (some mv0) (sc mv0) mv h with ⟨heq, hall⟩ | ⟨l1, l2, hsp, hlt, hl1, hl2⟩
      · have hmv : mv = mv0 := Option.some_injective _ heq
        subst hmv
        right
        refine ⟨[], rest, rfl, hup, ?_, hall⟩
        intro m' hm'
        exact absurd hm' (List.not_mem_nil m')
      · right
        refine ⟨mv0 :: l1, l2, by simp [hsp], hup.trans hlt, ?_, hl2⟩
        intro m' hm'
        rcases List.mem_cons.mp hm' with h0 | h0
        · rw [h0]; exact hlt
        · exact hl1 m' h0
    · rw [if_neg (fun hc => hup hc.2),
        if_neg (fun hc => Bool.true_eq_false.mp hc.1)] at h
      have hsc0 : sc mv0 ≤ bv := not_lt.mp hup
      rcases ih bm bv mv h with ⟨heq, hall⟩ | ⟨l1, l2, hsp, hlt, hl1, hl2⟩
      · left
        refine ⟨heq, ?_⟩
        intro m' hm'
        rcases List.mem_cons.mp hm' with h0 | h0
        · rw [h0]; exact hsc0
        · exact hall m' h0
      · right
        refine ⟨mv0 :: l1, l2, by simp [hsp], hlt, ?_, hl2⟩
        intro m' hm'
        rcases List.mem_cons.mp hm' with h0 | h0
        · rw [h0]; exact hsc0.trans_lt hlt
        · exact hl1 m' h0

/-- Dual of `gbmLoop_max_char` for the minimizing side. -/
lemma gbmLoop_min_char (sc : M → Score) :
    ∀ (mvs : List M) (bm : Option M) (bv : Score) (mv : M),
      gbmLoop false sc mvs bm bv = some mv →
      (some mv = bm ∧ ∀ m' ∈ mvs, bv ≤ sc m') ∨
      (∃ l1 l2, mvs = l1 ++ mv :: l2 ∧ sc mv < bv ∧
        (∀ m' ∈ l1, sc mv < sc m') ∧ (∀ m' ∈ l2, sc mv ≤ sc m')) := by
  intro mvs
  induction mvs with
  | nil =>
    intro bm bv mv h
    left
    exact ⟨h.symm, by intro m' hm'; exact absurd hm' (List.not_mem_nil m')⟩
  | cons mv0 rest ih =>
    intro bm bv mv h
    simp only [gbmLoop] at h
    rw [if_neg (fun hc => Bool.false_eq_true.mp hc.1)] at h
    by_cases hup : sc mv0 < bv
    · rw [if_pos ⟨trivial, hup⟩] at h
      rcases ih (some mv0) (sc mv0) mv h with ⟨heq, hall⟩ | ⟨l1, l2, hsp, hlt, hl1, hl2⟩
      · have hmv : mv = mv0 := Option.some_injective _ heq
        subst hmv
        right
        refine ⟨[], rest, rfl, hup, ?_, hall⟩
        intro m' hm'
        exact absurd hm' (List.not_mem_nil m')
      · right
        refine ⟨mv0 :: l1, l2, by simp [hsp], hlt.trans hup, ?_, hl2⟩
        intro m' hm'
        rcases List.mem_cons.mp hm' with h0 | h0
        · rw [h0]; exact hlt
        · exact hl1 m' h0
    · rw [if_neg (fun hc => hup hc.2)] at h
      have hsc0 : bv ≤ sc mv0 := not_lt.mp hup
      rcases ih bm bv mv h with ⟨heq, hall⟩ | ⟨l1, l2, hsp, hlt, hl1, hl2⟩
      · left
        refine ⟨heq, ?_⟩
        intro m' hm'
        rcases List.mem_cons.mp hm' with h0 | h0
        · rw [h0]; exact hsc0
        · exact hall m' h0
      · right
        refine ⟨mv0 :: l1, l2, by simp [hsp], hlt, ?_, hl2⟩
        intro m' hm'
        rcases List.mem_cons.mp hm' with h0 | h0
        · rw [h0]; exact hlt.trans_le hsc0
        · exact hl1 m' h0

/-- When every child call returns within its fuel, so does the maximizing
loop, and it computes exactly the un-fueled loop. -/
lemma maxLoopF_some (cfF : M → Score → Option Score) (cf : M → Score → Score)
    (hcf : ∀ mv a, cfF mv a = some (cf mv a)) :
    ∀ (mvs : List M) (alpha beta best : Score),
      maxLoopF cfF mvs alpha beta best = some (maxLoop cf mvs alpha beta best) := by
  intro mvs
  induction mvs with
  | nil => intro alpha beta best; rfl
  | cons mv rest ih =>
    intro alpha beta best
    simp only [maxLoopF, maxLoop, hcf mv alpha]
    by_cases hbr : beta ≤ max alpha (cf mv alpha)
    · rw [if_pos hbr, if_pos hbr]
    · rw [if_neg hbr, if_neg hbr]; exact ih _ beta _

/-- Dual of `maxLoopF_some`. -/
lemma minLoopF_some (cfF : M → Score → Option Score) (cf : M → Score → Score)
    (hcf : ∀ mv b, cfF mv b = some (cf mv b)) :
    ∀ (mvs : List M) (alpha beta best : Score),
      minLoopF cfF mvs alpha beta best = some (minLoop cf mvs alpha beta best) := by
  intro mvs
  induction mvs with
  | nil => intro alpha beta best; rfl
  | cons mv rest ih =>
    intro alpha beta best
    simp only [minLoopF, minLoop, hcf mv beta]
    by_cases hbr : min beta (cf mv beta) ≤ alpha
    · rw [if_pos hbr, if_pos hbr]
    · rw [if_neg hbr, if_neg hbr]; exact ih alpha _ _

/-- With non-negative depth `d`, fuel `d + 1` suffices: the fueled search
returns, and computes exactly `minimax`. -/
lemma minimaxF_eq_minimax (E : Engine P M) :
    ∀ (d : Nat) (p : P) (alpha beta : Score) (m : Bool),
      minimaxF E (d + 1) p (d : ℤ) alpha beta m
        = some (minimax E d p alpha beta m) := by
  intro d
  induction d with
  | zero =>
    intro p alpha beta m
    show (if ((0 : ℕ) : ℤ) = 0 ∨ E.isGameOver p = true
        then some (intScore (evaluate_board E p))
        else if m = true then
          maxLoopF (fun mv a => minimaxF E 0 (E.push p mv) (((0 : ℕ) : ℤ) - 1) a beta false)
            (E.legalMoves p) alpha beta ⊥
        else
          minLoopF (fun mv bt => minimaxF E 0 (E.push p mv) (((0 : ℕ) : ℤ) - 1) alpha bt true)
            (E.legalMoves p) alpha beta ⊤)
      = some (minimax E 0 p alpha beta m)
    rw [if_pos (Or.inl (show ((0 : ℕ) : ℤ) = 0 by norm_num))]
    rfl
  | succ d ih =>
    intro p alpha beta m
    have hd0 : ((d + 1 : ℕ) : ℤ) ≠ 0 := by
      exact_mod_cast Nat.succ_ne_zero d
    have hcast : ((d + 1 : ℕ) : ℤ) - 1 = (d : ℤ) := by push_cast; ring
    show (if ((d + 1 : ℕ) : ℤ) = 0 ∨ E.isGameOver p = true
        then some (intScore (evaluate_board E p))
        else if m = true then
          maxLoopF
            (fun mv a => minimaxF E (d + 1) (E.push p mv) (((d + 1 : ℕ) : ℤ) - 1) a beta false)
            (E.legalMoves p) alpha beta ⊥
        else
          minLoopF
            (fun mv bt => minimaxF E (d + 1) (E.push p mv) (((d + 1 : ℕ) : ℤ) - 1) alpha bt true)
            (E.legalMoves p) alpha beta ⊤)
      = some (minimax E (d + 1) p alpha beta m)
    rw [hcast]
    by_cases hg : E.isGameOver p = true
    · rw [if_pos (Or.inr hg)]
      simp [minimax, if_pos hg]
    · rw [if_neg (by rintro (h | h); exacts [hd0 h, hg h])]
      cases m with
      | true =>
        rw [if_pos rfl]
        simp only [minimax, if_neg hg, if_pos trivial]
        exact maxLoopF_some _ _ (fun mv a => ih (E.push p mv) a beta false)
          (E.legalMoves p) alpha beta ⊥
      | false =>
        rw [if_neg (fun h => Bool.false_ne_true h)]
        simp only [minimax, if_neg hg]
        rw [if_neg (fun h => Bool.false_ne_true h)]
        exact minLoopF_some _ _ (fun mv bt => ih (E.push p mv) alpha bt true)
          (E.legalMoves p) alpha beta ⊤

/-- On the self-loop engine, a negative depth never returns, whatever the
fuel: the `depth == 0` test never fires. -/
lemma minimaxF_loopE_none :
    ∀ (fuel : Nat) (d : ℤ), d < 0 → ∀ (alpha beta : Score) (m : Bool),
      minimaxF LoopE fuel () d alpha beta m = none := by
  intro fuel
  induction fuel with
  | zero => intro d _ alpha beta m; rfl
  | succ fuel ih =>
    intro d hd alpha beta m
    have hcond : ¬(d = 0 ∨ LoopE.isGameOver () = true) := by
      rintro (h | h)
      · omega
      · exact absurd h (by decide)
    show (if d = 0 ∨ LoopE.isGameOver () = true
        then some (intScore (evaluate_board LoopE ()))
        else if m = true then
          maxLoopF (fun mv a => minimaxF LoopE fuel (LoopE.push () mv) (d - 1) a beta false)
            (LoopE.legalMoves ()) alpha beta ⊥
        else
          minLoopF (fun mv bt => minimaxF LoopE fuel (LoopE.push () mv) (d - 1) alpha bt true)
            (LoopE.legalMoves ()) alpha beta ⊤)
      = none
    rw [if_neg hcond]
    have hmoves : LoopE.legalMoves () = [()] := rfl
    cases m with
    | true =>
      rw [if_pos rfl, hmoves]
      simp only [maxLoopF, ih (d - 1) (by omega) alpha beta false]
    | false =>
      rw [if_neg (fun h => Bool.false_ne_true h), hmoves]
      simp only [minLoopF, ih (d - 1) (by omega) alpha beta true]

/-! The claim theorems. -/

/-- C3: `evaluate_board` equals the sum over the six piece kinds of
(White count minus Black count) times the fixed values pawn=1, knight=3,
bishop=3, rook=5, queen=9, king=0; as a pure function of the position. -/
theorem evaluate_board_material_sum (E : Engine P M) (board : P) :
    evaluate_board E board =
      ((E.pieceCount board Piece.pawn true : ℤ)
          - (E.pieceCount board Piece.pawn false : ℤ)) * 1
      + ((E.pieceCount board Piece.knight true : ℤ)
          - (E.pieceCount board Piece.knight false : ℤ)) * 3
      + ((E.pieceCount board Piece.bishop true : ℤ)
          - (E.pieceCount board Piece.bishop false : ℤ)) * 3
      + ((E.pieceCount board Piece.rook true : ℤ)
          - (E.pieceCount board Piece.rook false : ℤ)) * 5
      + ((E.pieceCount board Piece.queen true : ℤ)
          - (E.pieceCount board Piece.queen false : ℤ)) * 9
      + ((E.pieceCount board Piece.king true : ℤ)
          - (E.pieceCount board Piece.king false : ℤ)) * 0 := by
  simp only [evaluate_board, pieceOrder, piece_values, List.foldl]
  ring

/-- C9: `evaluate_board` depends only on the piece counts: two positions
with identical piece placement (in particular, differing only in the side to
move or other non-material state) get the same score. -/
theorem evaluate_board_placement_only (E : Engine P M) (p1 p2 : P)
    (h : ∀ k c, E.pieceCount p1 k c = E.pieceCount p2 k c) :
    evaluate_board E p1 = evaluate_board E p2 := by
  simp only [evaluate_board, pieceOrder, List.foldl, h]

/-- Witness for C9: in `CE1`, positions `3` and `12` carry the same piece
counts but opposite sides to move, and evaluate equally. -/
theorem evaluate_board_placement_only_witness :
    CE1.turn 3 ≠ CE1.turn 12 ∧ evaluate_board CE1 3 = evaluate_board CE1 12 :=
  ⟨by decide, evaluate_board_placement_only CE1 3 12 (by decide)⟩

/-- C2: with the full window `(-inf, +inf)`, alpha-beta `minimax` computes
exactly the pruning-free `plainMinimax`, for every engine, position, depth
and maximizing flag. -/
theorem minimax_pruning_equiv (E : Engine P M) (d : Nat) (p : P) (m : Bool) :
    minimax E d p ⊥ ⊤ m = plainMinimax E d p m := by
  obtain ⟨h1, h2, h3⟩ := ab_bounds E d p ⊥ ⊤ m bot_lt_top
  rcases le_or_lt (minimax E d p ⊥ ⊤ m) ⊥ with hv | hv
  · have hvb := le_bot_iff.mp hv
    have hw := le_bot_iff.mp ((h1 hv).trans hv)
    rw [hvb, hw]
  · rcases lt_or_le (minimax E d p ⊥ ⊤ m) ⊤ with hv2 | hv2
    · exact h3 hv hv2
    · have hvt := top_le_iff.mp hv2
      have hw := top_le_iff.mp (hv2.trans (h2 hv2))
      rw [hvt, hw]

/-- C4: every `minimax` call and every `get_best_move` call performs equally
many pushes and pops — also across pruning cutoffs — and returns the board
and its move stack exactly as it found them. -/
theorem search_stack_balance (E : Engine P M) (d : Nat) (s : BState P)
    (alpha beta : Score) (m : Bool) (depth : Nat) :
    (∃ v k, minimaxS E d s alpha beta m
        = (v, ⟨s.cur, s.stack, s.pushes + k, s.pops + k⟩)) ∧
    (∃ r k, get_best_moveS E s depth
        = (r, ⟨s.cur, s.stack, s.pushes + k, s.pops + k⟩)) := by
  constructor
  · obtain ⟨k, hk⟩ := minimaxS_state E d s alpha beta m
    exact ⟨(minimaxS E d s alpha beta m).1, k, by rw [← hk]⟩
  · obtain ⟨k, hk⟩ := get_best_moveS_state E s depth
    exact ⟨(get_best_moveS E s depth).1, k, by rw [← hk]⟩

/-- C6: at depth 0, and at any depth on a game-over position, `minimax`
returns the static evaluation immediately, leaving the board untouched and
performing no push. -/
theorem minimax_base_case (E : Engine P M) (p : P) (alpha beta : Score) (m : Bool)
    (d : Nat) (s : BState P) :
    minimax E 0 p alpha beta m = intScore (evaluate_board E p)
    ∧ minimaxS E 0 s alpha beta m = (intScore (evaluate_board E s.cur), s)
    ∧ (E.isGameOver p = true →
        minimax E d p alpha beta m = intScore (evaluate_board E p))
    ∧ (E.isGameOver s.cur = true →
        minimaxS E d s alpha beta m = (intScore (evaluate_board E s.cur), s)) := by
  refine ⟨rfl, rfl, ?_, ?_⟩
  · intro hg
    cases d with
    | zero => rfl
    | succ d => simp [minimax, if_pos hg]
  · intro hg
    cases d with
    | zero => rfl
    | succ d => simp [minimaxS, if_pos hg]

/-- Witness for C6 at the game-over position `99` of `CE1`, depth 3. -/
theorem minimax_base_case_witness :
    minimax CE1 0 99 ⊥ ⊤ true = intScore (evaluate_board CE1 99)
    ∧ minimaxS CE1 0 ⟨99, [], 0, 0⟩ ⊥ ⊤ true
        = (intScore (evaluate_board CE1 99), ⟨99, [], 0, 0⟩)
    ∧ minimax CE1 3 99 ⊥ ⊤ true = intScore (evaluate_board CE1 99)
    ∧ minimaxS CE1 3 ⟨99, [], 0, 0⟩ ⊥ ⊤ true
        = (intScore (evaluate_board CE1 99), ⟨99, [], 0, 0⟩) := by
  obtain ⟨h1, h2, h3, h4⟩ := minimax_base_case CE1 99 ⊥ ⊤ true 3 ⟨99, [], 0, 0⟩
  exact ⟨h1, h2, h3 (by decide), h4 (by decide)⟩

/-- C8: on a position with no legal moves that is not flagged game over, at
any depth at least 1, the loop body never runs and `minimax` returns the
unchanged sentinel: `-inf` when maximizing, `+inf` when minimizing. -/
theorem minimax_no_moves_sentinel (E : Engine P M) (p : P) (d : Nat)
    (alpha beta : Score)
    (hmv : E.legalMoves p = []) (hg : E.isGameOver p = false) (hd : 1 ≤ d) :
    minimax E d p alpha beta true = ⊥ ∧ minimax E d p alpha beta false = ⊤ := by
  cases d with
  | zero => exact absurd hd (by omega)
  | succ d =>
    have hg' : ¬ E.isGameOver p = true := by rw [hg]; exact Bool.false_ne_true
    constructor
    · simp [minimax, if_neg hg', hmv, maxLoop]
    · simp [minimax, if_neg hg', hmv, minLoop]

/-- Witness for C8 at position `11` of `CE1` (no moves, not game over). -/
theorem minimax_no_moves_sentinel_witness :
    minimax CE1 1 11 ⊥ ⊤ true = ⊥ ∧ minimax CE1 1 11 ⊥ ⊤ false = ⊤ :=
  minimax_no_moves_sentinel CE1 11 1 ⊥ ⊤ (by decide) (by decide) (by decide)

/-- C5: under the rules-engine guarantee that a position with no legal moves
is flagged game over, and depth at least 1, `get_best_move` returns `none`
exactly when the root has zero legal moves. -/
theorem get_best_move_none_iff (E : Engine P M)
    (hguar : ∀ p, E.legalMoves p = [] → E.isGameOver p = true)
    (board : P) (depth : Nat) (hd : 1 ≤ depth) :
    (get_best_move E board depth = none ↔ E.legalMoves board = []) := by
  cases hmv : E.legalMoves board with
  | nil =>
    constructor
    · intro _; rfl
    · intro _
      unfold get_best_move
      rw [hmv]
      rfl
  | cons mv rest =>
    constructor
    · intro hnone
      exfalso
      obtain ⟨z, hz⟩ := minimax_fin E hguar (depth - 1) (E.push board mv) ⊥ ⊤
        (! E.turn (E.push board mv))
      have hz' : rootScore E board depth mv = intScore z := hz
      have hsome : (get_best_move E board depth).isSome = true := by
        unfold get_best_move
        rw [hmv]
        cases ht : E.turn board with
        | true =>
          rw [if_pos rfl]
          simp only [gbmLoop]
          rw [if_pos ⟨trivial, show (⊥ : Score) < rootScore E board depth mv by
            rw [hz']; exact bot_lt_intScore z⟩]
          exact gbmLoop_isSome true (rootScore E board depth) rest (some mv)
            (rootScore E board depth mv) rfl
        | false =>
          rw [if_neg (fun hc => Bool.false_ne_true hc)]
          simp only [gbmLoop]
          rw [if_neg (fun hc => Bool.false_ne_true hc.1),
            if_pos ⟨trivial, show rootScore E board depth mv < (⊤ : Score) by
              rw [hz']; exact intScore_lt_top z⟩]
          exact gbmLoop_isSome false (rootScore E board depth) rest (some mv)
            (rootScore E board depth mv) rfl
      rw [hnone] at hsome
      exact Bool.false_ne_true hsome
    · intro h
      exact absurd h (List.cons_ne_nil mv rest)

/-- Witness for C5 on `CE3`, which satisfies the guarantee: at the root
(one legal move) the selector returns a move, not `none`. -/
theorem get_best_move_none_iff_witness :
    (get_best_move CE3 0 2 = none ↔ CE3.legalMoves 0 = [])
    ∧ get_best_move CE3 0 2 = some () := by
  refine ⟨get_best_move_none_iff CE3 (by decide) 0 2 (by decide), by decide⟩

/-- C7: the running best is updated only on strict improvement, so whenever
`get_best_move` returns a move it is the earliest move in enumeration order
attaining the extremal computed root score: every earlier move scores
strictly worse for the side to move, every later move no better. -/
theorem get_best_move_earliest_extremal (E : Engine P M) (board : P) (depth : Nat)
    (mv : M) (h : get_best_move E board depth = some mv) :
    (E.turn board = true →
      ∃ l1 l2, E.legalMoves board = l1 ++ mv :: l2 ∧
        (∀ m' ∈ l1, rootScore E board depth m' < rootScore E board depth mv) ∧
        (∀ m' ∈ l2, rootScore E board depth m' ≤ rootScore E board depth mv)) ∧
    (E.turn board = false →
      ∃ l1 l2, E.legalMoves board = l1 ++ mv :: l2 ∧
        (∀ m' ∈ l1, rootScore E board depth mv < rootScore E board depth m') ∧
        (∀ m' ∈ l2, rootScore E board depth mv ≤ rootScore E board depth m')) := by
  unfold get_best_move at h
  constructor
  · intro ht
    rw [ht, if_pos rfl] at h
    rcases gbmLoop_max_char (rootScore E board depth) (E.legalMoves board) none ⊥ mv h
      with ⟨heq, _⟩ | ⟨l1, l2, hsp, _, hl1, hl2⟩
    · exact absurd heq (Option.some_ne_none mv)
    · exact ⟨l1, l2, hsp, hl1, hl2⟩
  · intro ht
    rw [ht, if_neg (fun hc => Bool.false_ne_true hc)] at h
    rcases gbmLoop_min_char (rootScore E board depth) (E.legalMoves board) none ⊤ mv h
      with ⟨heq, _⟩ | ⟨l1, l2, hsp, _, hl1, hl2⟩
    · exact absurd heq (Option.some_ne_none mv)
    · exact ⟨l1, l2, hsp, hl1, hl2⟩

/-- Witness for C7 on `CE1` at depth 2: the returned move 1 is the earliest
move attaining the extremal computed root score. -/
theorem get_best_move_earliest_extremal_witness :
    (CE1.turn 0 = true →
      ∃ l1 l2, CE1.legalMoves 0 = l1 ++ 1 :: l2 ∧
        (∀ m' ∈ l1, rootScore CE1 0 2 m' < rootScore CE1 0 2 1) ∧
        (∀ m' ∈ l2, rootScore CE1 0 2 m' ≤ rootScore CE1 0 2 1)) ∧
    (CE1.turn 0 = false →
      ∃ l1 l2, CE1.legalMoves 0 = l1 ++ 1 :: l2 ∧
        (∀ m' ∈ l1, rootScore CE1 0 2 1 < rootScore CE1 0 2 m') ∧
        (∀ m' ∈ l2, rootScore CE1 0 2 1 ≤ rootScore CE1 0 2 m')) :=
  get_best_move_earliest_extremal CE1 0 2 1 (by decide)

/-- C10: the search recursion terminates for every engine, position, window
and flag at every depth `d ≥ 0` — fuel `d + 1` suffices and reproduces
`minimax` — while with a negative depth the `depth == 0` test never fires:
on the self-loop engine no amount of fuel makes the call return. -/
theorem minimax_termination_fuel :
    (∀ (Q N : Type) (E : Engine Q N) (d : Nat) (p : Q) (alpha beta : Score) (m : Bool),
      minimaxF E (d + 1) p (d : ℤ) alpha beta m = some (minimax E d p alpha beta m)) ∧
    (∀ (fuel : Nat) (d : ℤ), d < 0 → ∀ (alpha beta : Score) (m : Bool),
      minimaxF LoopE fuel () d alpha beta m = none) :=
  ⟨fun _ _ E d p alpha beta m => minimaxF_eq_minimax E d p alpha beta m,
   minimaxF_loopE_none⟩

/-- Witness for C10: at depth 2 on `CE1` fuel 3 returns the `minimax` value;
at depth `-1` on the self-loop engine fuel 5 (like any fuel) returns none. -/
theorem minimax_termination_fuel_witness :
    minimaxF CE1 (2 + 1) 0 ((2 : ℕ) : ℤ) ⊥ ⊤ true = some (minimax CE1 2 0 ⊥ ⊤ true)
    ∧ minimaxF LoopE 5 () (-1) ⊥ ⊤ true = none :=
  ⟨minimax_termination_fuel.1 Nat Nat CE1 2 0 ⊥ ⊤ true,
   minimax_termination_fuel.2 5 (-1) (by decide) ⊥ ⊤ true⟩

/-- C1 (refuted, code bug): at the root of `CE1` White is to move, yet the
maximizing flag handed to every child search — `not board.turn` evaluated
after `push` on line 59 — is `true`, the side that JUST moved, not its
opposite as the claim and the spec require.  Consequently `get_best_move`
scores the root moves 10 and 5 (letting the opponent maximize White's
material) and picks move 1, although the child searches with the claimed
flag `false` score the moves 0 and 5, which makes move 2 the best reply. -/
theorem get_best_move_child_maximizing_bug :
    CE1.turn 0 = true
    ∧ ((CE1.legalMoves 0).map fun mv => ! CE1.turn (CE1.push 0 mv)) = [true, true]
    ∧ get_best_move CE1 0 2 = some 1
    ∧ rootScore CE1 0 2 1 = intScore 10
    ∧ rootScore CE1 0 2 2 = intScore 5
    ∧ minimax CE1 1 (CE1.push 0 1) ⊥ ⊤ false = intScore 0
    ∧ minimax CE1 1 (CE1.push 0 2) ⊥ ⊤ false = intScore 5 := by
  refine ⟨rfl, by decide, by decide, by decide, by decide, by decide, by decide⟩
